import Mathlib

/-!
Shallow embedding of `src/lib/Map/LegendHelper.js` (terriajs).

Conventions of the embedding:
* JS numbers are modelled as `ℚ` (all inputs of interest are finite decimals);
  `Math.floor` is `Int.floor`, `Math.round` is `fun x => Int.floor (x + 1/2)`.
* A possibly-`undefined` JS value is an `Option`.
* The raw cells of a table column are `List (Option ℚ)`: `some q` is a cell for
  which `typeof x === 'number'` holds, `none` is any other cell.
* An `ImageData` colour gradient is its flat byte array `data` (`List ℕ`,
  length `4 * resolution`), exactly as the source indexes it.
* The two statistics routines `simplestats.quantile` and `simplestats.ckmeans`
  come from the `simple-statistics` npm package, whose sources are not part of
  this repository; they are modelled from the spec (see their doc comments).
-/

/-- RGBA byte array, e.g. `[r, g, b, a]` with components in `0..255`. -/
abbrev ColorArray := List ℕ

/-- terriajs-cesium `Color` (external collaborator): four float channels. -/
structure Color where
  red : ℚ
  green : ℚ
  blue : ℚ
  alpha : ℚ
deriving DecidableEq, Repr

/-- `defaultColorArray` from LegendHelper.js: used if no selected variable. -/
def defaultColorArray : ColorArray := [32, 0, 200, 255]

/-- `colorArrayToColor` from LegendHelper.js: each channel divided by 255. -/
def colorArrayToColor (colorArray : ColorArray) : Color :=
  { red := (colorArray.getD 0 0 : ℚ) / 255,
    green := (colorArray.getD 1 0 : ℚ) / 255,
    blue := (colorArray.getD 2 0 : ℚ) / 255,
    alpha := (colorArray.getD 3 0 : ℚ) / 255 }

/-- One entry of a colour map, e.g. `{offset: 0.0, color: 'rgba(32,0,200,1.0)'}`. -/
structure ColorStop where
  offset : ℚ
  color : String
deriving DecidableEq, Repr

/-- The part of `VarType` that LegendHelper.js tests (`=== VarType.ENUM`);
every non-enumerated column type is collapsed into `SCALAR`. -/
inductive VarType
  | ENUM
  | SCALAR
deriving DecidableEq, Repr

/-- The fields of a `TableColumn` read by LegendHelper.js. -/
structure TableColumn where
  values : Option (List (Option ℚ))
  minimumValue : ℚ
  maximumValue : ℚ
  name : String
  type : VarType
  enumList : List String
deriving DecidableEq, Repr

/-- The `colorBinMethod` strings distinguished by LegendHelper.js:
`match(/none/i)`, `=== 'quantile'`, `=== 'auto'`; `ckmeans` stands for every
other string (all of which take the ckmeans branch). -/
inductive ColorBinMethod
  | auto
  | quantile
  | ckmeans
  | none
deriving DecidableEq, Repr

/-- The fields of a `TableStyle` read by LegendHelper.js after the
`LegendHelper` constructor has run (the constructor guarantees `colorBins`
and `legendTicks` are defined, so they are plain integers here). -/
structure TableStyle where
  colorBins : ℤ
  colorBinMethod : ColorBinMethod
  legendTicks : ℤ
  colorMap : Option (List ColorStop)
  minDisplayValue : Option ℚ
  maxDisplayValue : Option ℚ
deriving DecidableEq, Repr

/-- A `TableStyle` as supplied by the caller to the `LegendHelper`
constructor, where `colorBins` and `legendTicks` may still be undefined. -/
structure TableStyleOptions where
  colorBins : Option ℤ
  colorBinMethod : ColorBinMethod
  legendTicks : Option ℤ
  colorMap : Option (List ColorStop)
  minDisplayValue : Option ℚ
  maxDisplayValue : Option ℚ
deriving DecidableEq, Repr

/-- terriajs-cesium `defaultValue(a, b)`: `a` unless it is undefined. -/
def defaultValue (a : Option α) (d : α) : α := a.getD d

/-- JavaScript `Math.floor` on rationals. (`Rat.floor` rather than the
`⌊·⌋` notation so that concrete inputs evaluate by kernel reduction;
`jsFloor_eq_floor` below identifies the two.) -/
def jsFloor (q : ℚ) : ℤ := q.floor

/-- JavaScript `Math.min` on two integers. -/
def mathMin (a b : ℤ) : ℤ := if a ≤ b then a else b

/-- The observable effect of the `LegendHelper` constructor on the
caller-supplied `tableStyle` object (LegendHelper.js lines 42-43):
`colorBins` defaults to 7 and `legendTicks` to 0, in place. -/
def legendHelperConstructor (tableStyle : TableStyleOptions) : TableStyleOptions :=
  { tableStyle with
      colorBins := some (defaultValue tableStyle.colorBins 7),
      legendTicks := some (defaultValue tableStyle.legendTicks 0) }

/-- `getColorFromColorGradient` from LegendHelper.js: sample the flat
`ImageData` byte array at `floor(fraction * (resolution - 1)) * 4`.
(`Int.toNat` is the identity here: the index is nonnegative for every
fraction in `[0, 1]`.) -/
def getColorFromColorGradient (colorGradient : List ℕ) (fractionalPosition : ℚ) : ColorArray :=
  let colorIndex := (jsFloor (fractionalPosition * ((colorGradient.length : ℚ) / 4 - 1))).toNat * 4
  [colorGradient.getD colorIndex 0,
   colorGradient.getD (colorIndex + 1) 0,
   colorGradient.getD (colorIndex + 2) 0,
   colorGradient.getD (colorIndex + 3) 0]

/-- One element of the `_binColors` array: `{ upperBound, color }`. -/
structure BinColor where
  upperBound : ℚ
  color : ColorArray
deriving DecidableEq, Repr

/-- Linear interpolation between order statistics of an already sorted list:
position `h` lies between indices `⌊h⌋` and `⌊h⌋ + 1`. Helper for `quantile`. -/
def interpolateSorted (sorted : List ℚ) (h : ℚ) : ℚ :=
  let j := (jsFloor h).toNat
  let xj := sorted.getD j 0
  let xj1 := sorted.getD (j + 1) xj
  xj + (h - (jsFloor h : ℚ)) * (xj1 - xj)

/-- Modelled from the spec: `simplestats.quantile` of the `simple-statistics`
npm package (not part of this repository). Spec section 4.2: quantile "using
linear interpolation between order statistics (standard quantile estimator,
type-7/R-7 definition)" — sort the sample and evaluate at `h = (n - 1) * p`. -/
def quantile (values : List ℚ) (p : ℚ) : ℚ :=
  let sorted := values.insertionSort (· ≤ ·)
  interpolateSorted sorted (((sorted.length : ℚ) - 1) * p)

/-- All length-`k` lists of positive naturals summing to `n` (the ways to cut
a sorted `n`-element list into `k` contiguous nonempty blocks). -/
def compositions : ℕ → ℕ → List (List ℕ)
  | n, 0 => if n = 0 then [[]] else []
  | n, k + 1 =>
    (List.range n).flatMap fun j =>
      (compositions (n - (j + 1)) k).map fun rest => (j + 1) :: rest

/-- Cut `xs` into consecutive blocks of the given sizes. -/
def splitBlocks : List ℚ → List ℕ → List (List ℚ)
  | _, [] => []
  | xs, s :: rest => xs.take s :: splitBlocks (xs.drop s) rest

/-- Within-cluster sum of squared deviations from the cluster mean,
written as `Σ x² - (Σ x)² / n`. -/
def clusterCost (c : List ℚ) : ℚ :=
  (c.map fun x => x * x).sum - c.sum * c.sum / (c.length : ℚ)

/-- Total within-cluster sum of squares of one way of cutting `xs`. -/
def partitionCost (xs : List ℚ) (sizes : List ℕ) : ℚ :=
  ((splitBlocks xs sizes).map clusterCost).sum

/-- Modelled from the spec: `simplestats.ckmeans` of the `simple-statistics`
npm package (not part of this repository). Spec section 4.2: "a
minimal-within-cluster-variance 1-D partition (Jenks/ckmeans-style
dynamic-programming optimal clustering) into effectiveBinCount clusters" of
the sorted values. Returns `[]` when no such partition exists (the library
requires `nClusters ≤ values.length`; LegendHelper always guarantees this). -/
def ckmeans (values : List ℚ) (nClusters : ℕ) : List (List ℚ) :=
  let sorted := values.insertionSort (· ≤ ·)
  match (compositions sorted.length nClusters).argmin (partitionCost sorted) with
  | Option.none => []
  | Option.some sizes => splitBlocks sorted sizes

/-- The rest of the cluster-to-upperBound loop of `buildBinColors`
(LegendHelper.js lines 163-171), with `prev` the cluster at index `i - 1`:
a later cluster is skipped when it has exactly one element equal to the last
element of the cluster immediately before it (by original index). -/
def clusterUpperBoundsAux (prev : List ℚ) : List (List ℚ) → List ℚ
  | [] => []
  | c :: rest =>
    if c.length = 1 ∧ c.headD 0 = prev.getLastD 0 then
      clusterUpperBoundsAux c rest
    else
      c.getLastD 0 :: clusterUpperBoundsAux c rest

/-- The cluster-to-upperBound loop of `buildBinColors`: the first cluster
(index 0) is always kept, since the skip condition requires `i > 0`. -/
def clusterUpperBounds : List (List ℚ) → List ℚ
  | [] => []
  | c :: rest => c.getLastD 0 :: clusterUpperBoundsAux c rest

/-- `buildBinColors` from LegendHelper.js (lines 141-177). -/
def buildBinColors (tableColumn : TableColumn) (tableStyle : TableStyle)
    (colorGradient : List ℕ) : Option (List BinColor) :=
  match tableColumn.values with
  | Option.none => Option.none
  | Option.some values =>
    if tableStyle.colorBins ≤ 0 ∨ tableStyle.colorBinMethod = ColorBinMethod.none then
      Option.none
    else
      let numericalValues := values.filterMap id
      let binCount : ℤ := mathMin tableStyle.colorBins (numericalValues.length : ℤ)
      if tableStyle.colorBinMethod = ColorBinMethod.quantile ∨
          (tableStyle.colorBinMethod = ColorBinMethod.auto ∧ 1000 < numericalValues.length) then
        Option.some ((List.range binCount.toNat).map fun (i : ℕ) =>
          { upperBound := quantile numericalValues (((i : ℚ) + 1) / (binCount : ℚ)),
            color := getColorFromColorGradient colorGradient ((i : ℚ) / ((binCount : ℚ) - 1)) })
      else
        let clusters := ckmeans numericalValues binCount.toNat
        let upperBounds := clusterUpperBounds clusters
        Option.some ((List.range upperBounds.length).map fun i =>
          { upperBound := upperBounds.getD i 0,
            color := getColorFromColorGradient colorGradient
              ((i : ℚ) / ((upperBounds.length : ℚ) - 1)) })

/-- The index reached by the scan loop of `getColorFromValue`
(`while (i < binColors.length - 1 && value > binColors[i].upperBound) i++`). -/
def findBinIndex (value : ℚ) : List BinColor → ℕ
  | [] => 0
  | [_] => 0
  | b :: c :: rest =>
    if value > b.upperBound then findBinIndex value (c :: rest) + 1 else 0

/-- `LegendHelper.prototype.getColorFromValue` (LegendHelper.js lines 73-86),
as a function of the cached `_binColors` array. The inner `Option.none` case
is the defensive `'Bad bin'` branch of the source. -/
def getColorFromValue (binColors : List BinColor) (value : Option ℚ) : Color :=
  match value with
  | Option.none => colorArrayToColor defaultColorArray
  | Option.some v =>
    match binColors.get? (findBinIndex v binColors) with
    | Option.none => colorArrayToColor [0, 0, 0, 0]
    | Option.some b => colorArrayToColor b.color

/-- JavaScript `Math.round`: half-way cases round toward positive infinity. -/
def jsRound (x : ℚ) : ℤ := jsFloor (x + 1 / 2)

/-- Decimal rendering of `z / 100` with trailing zeros trimmed: how JS
`Number.prototype.toString` prints the result of `Math.round(f*100)/100`
(spec section 4.3: "trim to the shortest exact decimal representation"). -/
def hundredthsToString (z : ℤ) : String :=
  let sign := if z < 0 then "-" else ""
  let n := z.natAbs
  let whole := n / 100
  let frac := n % 100
  if frac = 0 then sign ++ toString whole
  else if frac % 10 = 0 then sign ++ toString whole ++ "." ++ toString (frac / 10)
  else if frac < 10 then sign ++ toString whole ++ ".0" ++ toString frac
  else sign ++ toString whole ++ "." ++ toString frac

/-- `convertToStringWithAtMostTwoDecimalPlaces` from LegendHelper.js:
`(Math.round(f * 100) / 100).toString()`. -/
def convertToStringWithAtMostTwoDecimalPlaces (f : ℚ) : String :=
  hundredthsToString (jsRound (f * 100))

/-- A legend item; fields that a given path leaves undefined stay `none`. -/
structure LegendItem where
  title : Option String := Option.none
  titleAbove : Option String := Option.none
  titleBelow : Option String := Option.none
  color : Option String := Option.none
deriving DecidableEq, Repr

/-- The props object handed to the `Legend` constructor. -/
structure LegendProps where
  title : String
  barHeightMin : Option ℤ := Option.none
  gradientColorMap : Option (List ColorStop) := Option.none
  labelTickColor : Option String := Option.none
  itemSpacing : Option ℤ := Option.none
  items : List LegendItem
deriving DecidableEq, Repr

/-- The `'rgb(' + r + ',' + g + ',' + b + ')'` string built for an item. -/
def rgbString (c : ColorArray) : String :=
  "rgb(" ++ toString (c.getD 0 0) ++ "," ++ toString (c.getD 1 0) ++ ","
    ++ toString (c.getD 2 0) ++ ")"

/-- `gradientLabelPoints` from `buildLegendProps`: `2 + ticks` evenly spaced
label points (the JS loop runs `i = 1 .. segments`; here `i = i0 + 1`). -/
def gradientLabelPoints (minimumValue maximumValue : ℚ) (ticks : ℤ) : List LegendItem :=
  let segments : ℤ := 2 + ticks
  (List.range segments.toNat).map fun (i0 : ℕ) =>
    { titleAbove := some (convertToStringWithAtMostTwoDecimalPlaces
        (minimumValue + (maximumValue - minimumValue) * (((i0 : ℚ) + 1) / (segments : ℚ)))),
      titleBelow := if i0 = 0
        then some (convertToStringWithAtMostTwoDecimalPlaces minimumValue)
        else Option.none }

/-- A placeholder `BinColor` used only as the (never reached) default of
in-range `List.getD` lookups. -/
def dummyBinColor : BinColor := { upperBound := 0, color := [] }

/-- The `minimumValue` local of `buildLegendProps` (source lines 190-199):
the style-provided display bound applies only when the column minimum and
maximum differ. -/
def displayMinimum (tableColumn : TableColumn) (tableStyle : TableStyle) : ℚ :=
  if tableColumn.minimumValue ≠ tableColumn.maximumValue
  then defaultValue tableStyle.minDisplayValue tableColumn.minimumValue
  else tableColumn.minimumValue

/-- The `maximumValue` local of `buildLegendProps` (source lines 190-199). -/
def displayMaximum (tableColumn : TableColumn) (tableStyle : TableStyle) : ℚ :=
  if tableColumn.minimumValue ≠ tableColumn.maximumValue
  then defaultValue tableStyle.maxDisplayValue tableColumn.maximumValue
  else tableColumn.maximumValue

/-- `buildLegendProps` from LegendHelper.js (lines 184-253). An empty
`binColors` array is truthy in JS, so only `undefined` (here `none`)
selects the gradient path. -/
def buildLegendProps (tableColumn : TableColumn) (tableStyle : TableStyle)
    (colorMap : List ColorStop) (binColors : Option (List BinColor)) : Option LegendProps :=
  if colorMap.length = 1 then
    Option.none
  else
    let minimumValue := displayMinimum tableColumn tableStyle
    let maximumValue := displayMaximum tableColumn tableStyle
    match binColors with
    | Option.none =>
      Option.some
        { title := tableColumn.name,
          barHeightMin := some 130,
          gradientColorMap := some colorMap,
          labelTickColor := some ("darkgray"),
          items := gradientLabelPoints minimumValue maximumValue tableStyle.legendTicks }
    | Option.some bs =>
      if tableColumn.type = VarType.ENUM then
        Option.some
          { title := tableColumn.name,
            itemSpacing := some 2,
            items := (List.range bs.length).map fun i =>
              { title := tableColumn.enumList.get? i,
                color := some (rgbString (bs.getD i dummyBinColor).color) } }
      else
        Option.some
          { title := tableColumn.name,
            itemSpacing := some 0,
            items := (List.range bs.length).map fun i =>
              let b := bs.getD i dummyBinColor
              { titleAbove :=
                  if i = 0 ∨ i < bs.length - 1 ∨
                      b.upperBound > (bs.getD (i - 1) dummyBinColor).upperBound
                  then some (convertToStringWithAtMostTwoDecimalPlaces b.upperBound)
                  else Option.none,
                titleBelow :=
                  if i = 0 ∧ b.upperBound ≠ minimumValue
                  then some (convertToStringWithAtMostTwoDecimalPlaces minimumValue)
                  else Option.none,
                color := some (rgbString b.color) } }

/-! Bridging lemmas between the JS-faithful arithmetic helpers and Mathlib. -/

theorem jsFloor_eq_floor (q : ℚ) : jsFloor q = ⌊q⌋ := by
  rw [jsFloor, Rat.floor_def, Rat.floor_def']

theorem mathMin_eq_min (a b : ℤ) : mathMin a b = min a b := by
  rw [mathMin, min_def]

/-- Claim C8: if the colour ramp has exactly one stop, `buildLegendProps`
returns the "no legend" result (`none`), for every column, style and bin
state — never a legend with a single item. -/
theorem buildLegendProps_single_stop (tableColumn : TableColumn) (tableStyle : TableStyle)
    (colorMap : List ColorStop) (binColors : Option (List BinColor))
    (h : colorMap.length = 1) :
    buildLegendProps tableColumn tableStyle colorMap binColors = Option.none := by
  unfold buildLegendProps
  rw [if_pos h]

theorem buildLegendProps_single_stop_witness :
    buildLegendProps
      { values := Option.none, minimumValue := 0, maximumValue := 0, name := "",
        type := VarType.SCALAR, enumList := [] }
      { colorBins := 7, colorBinMethod := ColorBinMethod.auto, legendTicks := 0,
        colorMap := Option.none, minDisplayValue := Option.none, maxDisplayValue := Option.none }
      [{ offset := 0, color := "" }]
      (some [{ upperBound := 1, color := [0, 0, 0, 0] }]) = Option.none :=
  buildLegendProps_single_stop _ _ _ _ rfl

/-- Claim C10: the `LegendHelper` constructor mutates the caller-supplied
`tableStyle` in place: `colorBins` becomes 7 and `legendTicks` becomes 0
exactly when they were undefined (defined values are kept), and every other
field is left unchanged. -/
theorem legendHelperConstructor_spec (ts : TableStyleOptions) :
    (legendHelperConstructor ts).colorBins = some (defaultValue ts.colorBins 7) ∧
    (ts.colorBins = Option.none → (legendHelperConstructor ts).colorBins = some 7) ∧
    (∀ n, ts.colorBins = some n → (legendHelperConstructor ts).colorBins = some n) ∧
    (legendHelperConstructor ts).legendTicks = some (defaultValue ts.legendTicks 0) ∧
    (ts.legendTicks = Option.none → (legendHelperConstructor ts).legendTicks = some 0) ∧
    (∀ n, ts.legendTicks = some n → (legendHelperConstructor ts).legendTicks = some n) ∧
    (legendHelperConstructor ts).colorBinMethod = ts.colorBinMethod ∧
    (legendHelperConstructor ts).colorMap = ts.colorMap ∧
    (legendHelperConstructor ts).minDisplayValue = ts.minDisplayValue ∧
    (legendHelperConstructor ts).maxDisplayValue = ts.maxDisplayValue := by
  refine ⟨rfl, fun h => ?_, fun n h => ?_, rfl, fun h => ?_, fun n h => ?_, rfl, rfl, rfl, rfl⟩ <;>
    simp [legendHelperConstructor, defaultValue, h]

theorem legendHelperConstructor_spec_witness :
    (legendHelperConstructor
      { colorBins := Option.none, colorBinMethod := ColorBinMethod.auto,
        legendTicks := some 3, colorMap := Option.none,
        minDisplayValue := Option.none, maxDisplayValue := Option.none }).colorBins = some 7 ∧
    (legendHelperConstructor
      { colorBins := Option.none, colorBinMethod := ColorBinMethod.auto,
        legendTicks := some 3, colorMap := Option.none,
        minDisplayValue := Option.none, maxDisplayValue := Option.none }).legendTicks = some 3 :=
  ⟨(legendHelperConstructor_spec _).2.1 rfl,
   (legendHelperConstructor_spec _).2.2.2.2.2.1 3 rfl⟩

/-! The bin-lookup scan of `getColorFromValue`. -/

theorem findBinIndex_lt (v : ℚ) :
    ∀ binColors : List BinColor, binColors ≠ [] →
      findBinIndex v binColors < binColors.length
  | [], h => absurd rfl h
  | [_], _ => by simp [findBinIndex]
  | b :: c :: rest, _ => by
    rw [findBinIndex]
    split
    · have ih := findBinIndex_lt v (c :: rest) (by simp)
      simpa using Nat.succ_lt_succ ih
    · simp

theorem getColorFromValue_some_eq (v : ℚ) :
    ∀ binColors : List BinColor, binColors ≠ [] →
      getColorFromValue binColors (some v) =
        colorArrayToColor
          (((binColors.find? fun b => decide (v ≤ b.upperBound)).getD
            (binColors.getLastD dummyBinColor)).color)
  | [], h => absurd rfl h
  | [b], _ => by
    cases hd : decide (v ≤ b.upperBound) <;>
      simp [getColorFromValue, findBinIndex, List.find?, hd]
  | b :: c :: rest, _ => by
    by_cases h : v > b.upperBound
    · have hd : decide (v ≤ b.upperBound) = false := by
        simpa using not_le.mpr h
      have ih := getColorFromValue_some_eq v (c :: rest) (by simp)
      have hlast : (b :: c :: rest).getLastD dummyBinColor
          = (c :: rest).getLastD dummyBinColor := by
        rw [List.getLastD_cons, List.getLastD_eq_getLast?, List.getLastD_eq_getLast?]
        cases hq : (c :: rest).getLast? with
        | none => simp [List.getLast?] at hq
        | some x => simp
      rw [List.find?]
      rw [hd]
      rw [hlast, ← ih]
      simp only [getColorFromValue, findBinIndex, if_pos h]
      rfl
    · have hd : decide (v ≤ b.upperBound) = true := by
        simpa using not_lt.mp h
      simp [getColorFromValue, findBinIndex, List.find?, hd, if_neg h]

/-- Claim C4: `getColorFromValue` returns the fixed default colour for an
absent value regardless of bin state, and for a defined value and non-empty
bins returns the colour of the first bin whose `upperBound` is at least the
value, falling back to the last bin's colour when the value exceeds every
upper bound. -/
theorem getColorFromValue_spec :
    (∀ binColors : List BinColor,
        getColorFromValue binColors Option.none = colorArrayToColor defaultColorArray) ∧
    (∀ (binColors : List BinColor) (v : ℚ), binColors ≠ [] →
        getColorFromValue binColors (some v) =
          colorArrayToColor
            (((binColors.find? fun b => decide (v ≤ b.upperBound)).getD
              (binColors.getLastD dummyBinColor)).color)) :=
  ⟨fun _ => rfl, fun binColors v h => getColorFromValue_some_eq v binColors h⟩

theorem getColorFromValue_spec_witness :
    getColorFromValue
        [{ upperBound := 10, color := [1, 2, 3, 4] }, { upperBound := 20, color := [5, 6, 7, 8] }]
        (some 15)
      = colorArrayToColor
          ((([{ upperBound := (10 : ℚ), color := [1, 2, 3, 4] },
              { upperBound := 20, color := [5, 6, 7, 8] }].find?
                fun b => decide ((15 : ℚ) ≤ b.upperBound)).getD
            ([{ upperBound := (10 : ℚ), color := [1, 2, 3, 4] },
              { upperBound := 20, color := [5, 6, 7, 8] }].getLastD dummyBinColor)).color) :=
  getColorFromValue_spec.2 _ 15 (by simp)

/-- Claim C9: for every non-empty bin sequence the scan index of
`getColorFromValue` resolves to an existing bin, so the defensive
`'Bad bin'` branch (transparent black plus a console diagnostic) is
unreachable and the colour returned is that bin's colour. -/
theorem getColorFromValue_no_bad_bin (binColors : List BinColor) (v : ℚ)
    (h : binColors ≠ []) :
    ∃ b, binColors.get? (findBinIndex v binColors) = some b ∧
      getColorFromValue binColors (some v) = colorArrayToColor b.color := by
  have hlt := findBinIndex_lt v binColors h
  refine ⟨binColors.get ⟨findBinIndex v binColors, hlt⟩, List.get?_eq_get hlt, ?_⟩
  simp only [getColorFromValue, List.get?_eq_get hlt]

def singleBinFixture : List BinColor := [{ upperBound := 10, color := [1, 2, 3, 4] }]

theorem getColorFromValue_no_bad_bin_witness :
    ∃ b, singleBinFixture.get? (findBinIndex 99 singleBinFixture) = some b ∧
      getColorFromValue singleBinFixture (some 99) = colorArrayToColor b.color :=
  getColorFromValue_no_bad_bin singleBinFixture 99 (by simp [singleBinFixture])

theorem ckmeans_nil : ckmeans [] 0 = [] := by with_unfolding_all rfl

/-- Claim C7: `buildBinColors` yields the no-binning result (`undefined`)
whenever the method is `none` or the requested bin count is nonpositive (or
the column has no values array), and produces no boundary at all (either
`undefined` or an empty array) when no numeric value exists. -/
theorem buildBinColors_empty_cases (tc : TableColumn) (ts : TableStyle) (g : List ℕ) :
    ((tc.values = Option.none ∨ ts.colorBins ≤ 0 ∨ ts.colorBinMethod = ColorBinMethod.none) →
      buildBinColors tc ts g = Option.none) ∧
    (∀ values, tc.values = some values → values.filterMap id = [] →
      buildBinColors tc ts g = Option.none ∨ buildBinColors tc ts g = some []) := by
  cases hv : tc.values with
  | none =>
    constructor
    · intro _
      simp [buildBinColors, hv]
    · intro values h _
      cases h
  | some values0 =>
    constructor
    · rintro (h | h | h)
      · cases h
      · simp only [buildBinColors, hv]
        rw [if_pos (Or.inl h)]
      · simp only [buildBinColors, hv]
        rw [if_pos (Or.inr h)]
    · intro values hveq hnv
      injection hveq with hveq
      subst hveq
      by_cases hg : ts.colorBins ≤ 0 ∨ ts.colorBinMethod = ColorBinMethod.none
      · left
        simp only [buildBinColors, hv]
        rw [if_pos hg]
      · right
        simp only [buildBinColors, hv]
        rw [if_neg hg]
        have hcb : ¬ ts.colorBins ≤ 0 := fun hc => hg (Or.inl hc)
        have hmin : mathMin ts.colorBins ((0 : ℕ) : ℤ) = 0 := by
          rw [mathMin, if_neg (by exact_mod_cast hcb)]
          simp
        simp only [hnv, List.length_nil, hmin, Int.toNat_zero, List.range_zero, List.map_nil]
        split
        · rfl
        · simp [ckmeans_nil, clusterUpperBounds]

def columnNoNumbers : TableColumn :=
  { values := some [Option.none], minimumValue := 0, maximumValue := 0, name := "",
    type := VarType.SCALAR, enumList := [] }

def styleMethodNone : TableStyle :=
  { colorBins := 7, colorBinMethod := ColorBinMethod.none, legendTicks := 0,
    colorMap := Option.none, minDisplayValue := Option.none, maxDisplayValue := Option.none }

def styleAuto3 : TableStyle :=
  { colorBins := 3, colorBinMethod := ColorBinMethod.auto, legendTicks := 0,
    colorMap := Option.none, minDisplayValue := Option.none, maxDisplayValue := Option.none }

theorem buildBinColors_empty_cases_witness :
    buildBinColors columnNoNumbers styleMethodNone [] = Option.none ∧
    (buildBinColors columnNoNumbers styleAuto3 [] = Option.none ∨
      buildBinColors columnNoNumbers styleAuto3 [] = some []) :=
  ⟨(buildBinColors_empty_cases columnNoNumbers styleMethodNone []).1 (Or.inr (Or.inr rfl)),
   (buildBinColors_empty_cases columnNoNumbers styleAuto3 []).2 [Option.none] rfl rfl⟩

/-! Gradient sampling. -/

theorem take_four_of_le :
    ∀ l : List ℕ, 4 ≤ l.length →
      l.take 4 = [l.getD 0 0, l.getD 1 0, l.getD 2 0, l.getD 3 0]
  | _ :: _ :: _ :: _ :: _, _ => rfl
  | [], h => by simp at h
  | [_], h => by simp at h
  | [_, _], h => by simp at h
  | [_, _, _], h => by simp at h

theorem getD_drop_zero (l : List ℕ) (m i : ℕ) :
    (l.drop m).getD i 0 = l.getD (m + i) 0 := by
  simp [List.getD_eq_getElem?_getD, List.getElem?_drop]

/-- Claim C6: gradient sampling computes index `floor(fraction * (resolution
- 1))`, which always lies within `[0, resolution - 1]` for fractions in
`[0, 1]` (so the clamp never changes it), and returns the table entry at that
index; in particular fraction 0 yields the first entry and fraction 1 the
last, for every valid table. -/
theorem getColorFromColorGradient_spec (data : List ℕ) (res : ℕ) (f : ℚ)
    (hlen : data.length = 4 * res) (hres : 1 ≤ res) (h0 : 0 ≤ f) (h1 : f ≤ 1) :
    (jsFloor (f * ((res : ℚ) - 1))).toNat ≤ res - 1 ∧
    getColorFromColorGradient data f
      = (data.drop ((jsFloor (f * ((res : ℚ) - 1))).toNat * 4)).take 4 ∧
    getColorFromColorGradient data 0 = data.take 4 ∧
    getColorFromColorGradient data 1 = (data.drop ((res - 1) * 4)).take 4 := by
  have hres1 : (0 : ℚ) ≤ (res : ℚ) - 1 := by
    have : (1 : ℚ) ≤ (res : ℚ) := by exact_mod_cast hres
    linarith
  have hcast : ((data.length : ℚ) / 4 - 1) = (res : ℚ) - 1 := by
    rw [hlen]
    push_cast
    ring
  have hfl : jsFloor (f * ((res : ℚ) - 1)) ≤ (res : ℤ) - 1 := by
    rw [jsFloor_eq_floor]
    have hle : f * ((res : ℚ) - 1) ≤ (res : ℚ) - 1 := mul_le_of_le_one_left hres1 h1
    have : ((res : ℚ) - 1) = (((res : ℤ) - 1 : ℤ) : ℚ) := by push_cast; ring
    calc ⌊f * ((res : ℚ) - 1)⌋ ≤ ⌊(res : ℚ) - 1⌋ := Int.floor_le_floor hle
    _ = (res : ℤ) - 1 := by rw [this, Int.floor_intCast]
  have hidx : (jsFloor (f * ((res : ℚ) - 1))).toNat ≤ res - 1 := by omega
  refine ⟨hidx, ?_, ?_, ?_⟩
  · unfold getColorFromColorGradient
    rw [hcast]
    have hd4 : 4 ≤ (data.drop ((jsFloor (f * ((res : ℚ) - 1))).toNat * 4)).length := by
      rw [List.length_drop, hlen]
      omega
    rw [take_four_of_le _ hd4]
    simp [getD_drop_zero]
  · unfold getColorFromColorGradient
    rw [zero_mul, jsFloor_eq_floor, Int.floor_zero]
    have h4 : 4 ≤ data.length := by omega
    rw [take_four_of_le _ h4]
    rfl
  · unfold getColorFromColorGradient
    rw [one_mul, hcast]
    have : jsFloor ((res : ℚ) - 1) = (res : ℤ) - 1 := by
      rw [jsFloor_eq_floor]
      have hc : ((res : ℚ) - 1) = (((res : ℤ) - 1 : ℤ) : ℚ) := by push_cast; ring
      rw [hc, Int.floor_intCast]
    rw [this]
    have htn : ((res : ℤ) - 1).toNat = res - 1 := by omega
    rw [htn]
    have hd4 : 4 ≤ (data.drop ((res - 1) * 4)).length := by
      rw [List.length_drop, hlen]
      omega
    rw [take_four_of_le _ hd4]
    simp [getD_drop_zero]

theorem getColorFromColorGradient_spec_witness :
    (jsFloor ((1 / 2 : ℚ) * (((2 : ℕ) : ℚ) - 1))).toNat ≤ 2 - 1 ∧
    getColorFromColorGradient (List.range 8) (1 / 2)
      = ((List.range 8).drop ((jsFloor ((1 / 2 : ℚ) * (((2 : ℕ) : ℚ) - 1))).toNat * 4)).take 4 ∧
    getColorFromColorGradient (List.range 8) 0 = (List.range 8).take 4 ∧
    getColorFromColorGradient (List.range 8) 1 = ((List.range 8).drop ((2 - 1) * 4)).take 4 := by
  have h := getColorFromColorGradient_spec (List.range 8) 2 (1 / 2) (by rfl) (by omega)
    (by norm_num) (by norm_num)
  exact ⟨h.1, h.2.1, h.2.2.1, h.2.2.2⟩

theorem getD_range_map {β : Type} (f : ℕ → β) (n i : ℕ) (d : β) (h : i < n) :
    ((List.range n).map f).getD i d = f i := by
  rw [List.getD_eq_getElem?_getD, List.getElem?_map, List.getElem?_range h]
  rfl

/-- Claim C5: in the numeric-bins legend path, item `i` carries the formatted
`upperBound` as `titleAbove` unless `i` is the last item, is not item 0, and
its bound does not exceed the previous bound (duplicate-max suppression only
ever fires on the very last item); `titleBelow` is the formatted display
minimum, set only on item 0 and only when bin 0's bound differs from it. -/
theorem buildLegendProps_numeric_labels (tc : TableColumn) (ts : TableStyle)
    (colorMap : List ColorStop) (bs : List BinColor)
    (hcm : colorMap.length ≠ 1) (htype : tc.type ≠ VarType.ENUM) :
    ∃ props, buildLegendProps tc ts colorMap (some bs) = some props ∧
      props.items.length = bs.length ∧
      ∀ i, i < bs.length →
        ((props.items.getD i {}).titleAbove =
          if i + 1 = bs.length ∧ i ≠ 0 ∧
              (bs.getD i dummyBinColor).upperBound ≤ (bs.getD (i - 1) dummyBinColor).upperBound
          then Option.none
          else some (convertToStringWithAtMostTwoDecimalPlaces
            (bs.getD i dummyBinColor).upperBound)) ∧
        ((props.items.getD i {}).titleBelow =
          if i = 0 ∧ (bs.getD i dummyBinColor).upperBound ≠ displayMinimum tc ts
          then some (convertToStringWithAtMostTwoDecimalPlaces (displayMinimum tc ts))
          else Option.none) := by
  simp only [buildLegendProps, if_neg hcm, if_neg htype]
  refine ⟨_, rfl, by simp, ?_⟩
  intro i hi
  rw [getD_range_map _ _ _ _ hi]
  constructor
  · by_cases hc : i = 0 ∨ i < bs.length - 1 ∨
        (bs.getD i dummyBinColor).upperBound > (bs.getD (i - 1) dummyBinColor).upperBound
    · simp only [if_pos hc]
      rw [if_neg]
      rintro ⟨h1, h2, h3⟩
      rcases hc with h | h | h
      · exact h2 h
      · omega
      · exact absurd h3 (not_le.mpr h)
    · simp only [if_neg hc]
      rw [if_pos]
      push_neg at hc
      exact ⟨by omega, hc.1, hc.2.2⟩
  · rfl

def binsPairFixture : List BinColor :=
  [{ upperBound := 10, color := [1, 2, 3, 4] }, { upperBound := 10, color := [5, 6, 7, 8] }]

def columnFixture : TableColumn :=
  { values := some [some 0, some 10], minimumValue := 0, maximumValue := 10, name := "",
    type := VarType.SCALAR, enumList := [] }

theorem buildLegendProps_numeric_labels_witness :
    ∃ props, buildLegendProps columnFixture styleAuto3 [] (some binsPairFixture) = some props ∧
      props.items.length = binsPairFixture.length ∧
      ∀ i, i < binsPairFixture.length →
        ((props.items.getD i {}).titleAbove =
          if i + 1 = binsPairFixture.length ∧ i ≠ 0 ∧
              (binsPairFixture.getD i dummyBinColor).upperBound
                ≤ (binsPairFixture.getD (i - 1) dummyBinColor).upperBound
          then Option.none
          else some (convertToStringWithAtMostTwoDecimalPlaces
            (binsPairFixture.getD i dummyBinColor).upperBound)) ∧
        ((props.items.getD i {}).titleBelow =
          if i = 0 ∧ (binsPairFixture.getD i dummyBinColor).upperBound
              ≠ displayMinimum columnFixture styleAuto3
          then some (convertToStringWithAtMostTwoDecimalPlaces
            (displayMinimum columnFixture styleAuto3))
          else Option.none) :=
  buildLegendProps_numeric_labels columnFixture styleAuto3 [] binsPairFixture
    (by simp) (by simp [columnFixture])

theorem range_map_getD (l : List ℚ) :
    (List.range l.length).map (fun i => l.getD i 0) = l := by
  apply List.ext_getElem
  · simp
  · intro i h1 h2
    simp [List.getD_eq_getElem?_getD, List.getElem?_eq_getElem h2]

def columnOneToEight : TableColumn :=
  { values := some ([1, 2, 3, 4, 5, 6, 7, 8].map some), minimumValue := 1, maximumValue := 8,
    name := "", type := VarType.SCALAR, enumList := [] }

def styleQuantile4 : TableStyle :=
  { colorBins := 4, colorBinMethod := ColorBinMethod.quantile, legendTicks := 0,
    colorMap := Option.none, minDisplayValue := Option.none, maxDisplayValue := Option.none }

def columnOneTwo : TableColumn :=
  { values := some [some 1, some 2], minimumValue := 1, maximumValue := 2,
    name := "", type := VarType.SCALAR, enumList := [] }

/-- Claim C2: the quantile strategy is taken exactly when the method is
`quantile`, or `auto` with more than 1000 numeric values; it then produces
`upperBound i = quantile(values, (i+1)/binCount)` for the effective
`binCount = min(colorBins, numeric count)` (otherwise the boundaries come
from the ckmeans clustering); on values 1..8 with 4 bins the boundaries are
the type-7 25/50/75/100th percentile estimates `[2.75, 4.5, 6.25, 8]`. -/
theorem buildBinColors_quantile_strategy :
    (∀ (tc : TableColumn) (ts : TableStyle) (g : List ℕ) (values : List (Option ℚ)),
      tc.values = some values →
      ¬ ts.colorBins ≤ 0 →
      (ts.colorBinMethod = ColorBinMethod.quantile ∨
        (ts.colorBinMethod = ColorBinMethod.auto ∧ 1000 < (values.filterMap id).length)) →
      buildBinColors tc ts g =
        some ((List.range (mathMin ts.colorBins ((values.filterMap id).length : ℤ)).toNat).map
          fun (i : ℕ) =>
            { upperBound := quantile (values.filterMap id)
                (((i : ℚ) + 1) / ((mathMin ts.colorBins ((values.filterMap id).length : ℤ)) : ℚ)),
              color := getColorFromColorGradient g
                ((i : ℚ) / (((mathMin ts.colorBins ((values.filterMap id).length : ℤ)) : ℚ) - 1)) })) ∧
    (∀ (tc : TableColumn) (ts : TableStyle) (g : List ℕ) (values : List (Option ℚ)),
      tc.values = some values →
      ¬ ts.colorBins ≤ 0 →
      ts.colorBinMethod ≠ ColorBinMethod.none →
      ¬ (ts.colorBinMethod = ColorBinMethod.quantile ∨
        (ts.colorBinMethod = ColorBinMethod.auto ∧ 1000 < (values.filterMap id).length)) →
      (buildBinColors tc ts g).map (List.map BinColor.upperBound) =
        some (clusterUpperBounds (ckmeans (values.filterMap id)
          (mathMin ts.colorBins ((values.filterMap id).length : ℤ)).toNat))) ∧
    (buildBinColors columnOneToEight styleQuantile4 (List.range 32)).map
        (List.map BinColor.upperBound) = some [11 / 4, 9 / 2, 25 / 4, 8] := by
  refine ⟨?_, ?_, ?_⟩
  · intro tc ts g values hv hcb hcond
    have hmn : ¬ ts.colorBinMethod = ColorBinMethod.none := by
      rcases hcond with h | ⟨h, _⟩ <;> simp [h]
    simp only [buildBinColors, hv]
    rw [if_neg (by exact fun hor => hor.elim hcb hmn), if_pos hcond]
  · intro tc ts g values hv hcb hmn hcond
    simp only [buildBinColors, hv]
    rw [if_neg (by exact fun hor => hor.elim hcb hmn), if_neg hcond]
    rw [Option.map_some', List.map_map]
    exact congrArg some (range_map_getD _)
  · with_unfolding_all rfl

theorem buildBinColors_quantile_strategy_witness :
    buildBinColors columnOneToEight styleQuantile4 (List.range 32) =
      some ((List.range (mathMin styleQuantile4.colorBins
          ((([1, 2, 3, 4, 5, 6, 7, 8].map some).filterMap id).length : ℤ)).toNat).map
        fun (i : ℕ) =>
          { upperBound := quantile (([1, 2, 3, 4, 5, 6, 7, 8].map some).filterMap id)
              (((i : ℚ) + 1) / ((mathMin styleQuantile4.colorBins
                ((([1, 2, 3, 4, 5, 6, 7, 8].map some).filterMap id).length : ℤ)) : ℚ)),
            color := getColorFromColorGradient (List.range 32)
              ((i : ℚ) / (((mathMin styleQuantile4.colorBins
                ((([1, 2, 3, 4, 5, 6, 7, 8].map some).filterMap id).length : ℤ)) : ℚ) - 1)) }) ∧
    (buildBinColors columnOneTwo styleAuto3 (List.range 32)).map
        (List.map BinColor.upperBound) =
      some (clusterUpperBounds (ckmeans (([some 1, some 2] : List (Option ℚ)).filterMap id)
        (mathMin styleAuto3.colorBins ((([some 1, some 2] : List (Option ℚ)).filterMap id).length : ℤ)).toNat)) :=
  ⟨buildBinColors_quantile_strategy.1 columnOneToEight styleQuantile4 (List.range 32)
      ([1, 2, 3, 4, 5, 6, 7, 8].map some) rfl (by decide) (Or.inl rfl),
   buildBinColors_quantile_strategy.2.1 columnOneTwo styleAuto3 (List.range 32)
      [some 1, some 2] rfl (by decide) (by decide) (by decide)⟩

theorem clusterUpperBoundsAux_eq_filter (cs : List (List ℚ)) :
    ∀ prev : List ℚ,
      clusterUpperBoundsAux prev cs =
        ((cs.zip (prev :: cs)).filter fun p =>
          ! decide (p.1.length = 1 ∧ p.1.headD 0 = p.2.getLastD 0)).map
            fun p => p.1.getLastD 0 := by
  induction cs with
  | nil => intro prev; rfl
  | cons c rest ih =>
    intro prev
    rw [clusterUpperBoundsAux]
    by_cases hc : c.length = 1 ∧ c.headD 0 = prev.getLastD 0
    · rw [if_pos hc, ih c, List.zip_cons_cons, List.filter_cons,
        show (! decide (c.length = 1 ∧ c.headD 0 = prev.getLastD 0)) = false from by
          simp only [hc.1, decide_eq_true_eq, and_true, true_and]
          simpa using hc.2]
      simp only [Bool.false_eq_true, if_false]
    · rw [if_neg hc, ih c, List.zip_cons_cons, List.filter_cons,
        show (! decide (c.length = 1 ∧ c.headD 0 = prev.getLastD 0)) = true from by
          simpa using not_and_or.mp hc]
      simp only [if_true, List.map_cons]

def columnClustered : TableColumn :=
  { values := some ([1, 1, 1, 2, 2, 2, 9, 9, 9].map some), minimumValue := 1, maximumValue := 9,
    name := "", type := VarType.SCALAR, enumList := [] }

/-- Claim C3: in the ckmeans branch a cluster is dropped from the boundary
output exactly when it is not the first cluster (the head is always kept),
has size 1 and its single value equals the last value of the cluster just
before it (each later cluster is paired with its predecessor by `zip`); on
values `[1,1,1,2,2,2,9,9,9]` with 3 bins the boundaries are `[1, 2, 9]`,
with no degenerate duplicate. -/
theorem clusterUpperBounds_spec :
    (∀ (c : List ℚ) (rest : List (List ℚ)),
      clusterUpperBounds (c :: rest) =
        c.getLastD 0 ::
          ((rest.zip (c :: rest)).filter fun p =>
            ! decide (p.1.length = 1 ∧ p.1.headD 0 = p.2.getLastD 0)).map
              (fun p => p.1.getLastD 0)) ∧
    (buildBinColors columnClustered styleAuto3 (List.range 32)).map
        (List.map BinColor.upperBound) = some [1, 2, 9] ∧
    ckmeans [1, 1, 1, 2, 2, 2, 9, 9, 9] 3 = [[1, 1, 1], [2, 2, 2], [9, 9, 9]] := by
  refine ⟨?_, ?_, ?_⟩
  · intro c rest
    rw [clusterUpperBounds, clusterUpperBoundsAux_eq_filter]
  · with_unfolding_all rfl
  · with_unfolding_all rfl

/-! Order-statistics lemmas used for the bin-boundary invariants. -/

theorem getD_eq_default_of_le {α : Type} {l : List α} {i : ℕ} (d : α) (h : l.length ≤ i) :
    l.getD i d = d := by
  simp [List.getD_eq_getElem?_getD, List.getElem?_eq_none h]

theorem getD_eq_getElem {α : Type} {l : List α} {i : ℕ} (d : α) (h : i < l.length) :
    l.getD i d = l[i] := by
  simp [List.getD_eq_getElem?_getD, List.getElem?_eq_getElem h]

theorem sorted_getElem_mono {l : List ℚ} (hs : l.Sorted (· ≤ ·)) {i j : ℕ}
    (hij : i ≤ j) (hj : j < l.length) :
    l.get ⟨i, lt_of_le_of_lt hij hj⟩ ≤ l.get ⟨j, hj⟩ := by
  rcases eq_or_lt_of_le hij with rfl | hlt
  · exact le_refl _
  · exact List.pairwise_iff_getElem.mp hs i j _ _ hlt

theorem getLastD_mem {α : Type} {l : List α} (h : l ≠ []) (d : α) : l.getLastD d ∈ l := by
  rw [List.getLastD_eq_getLast?, List.getLast?_eq_getLast _ h]
  exact List.getLast_mem h

theorem getLastD_default_irrel {α : Type} {l : List α} (h : l ≠ []) (d d' : α) :
    l.getLastD d = l.getLastD d' := by
  rw [List.getLastD_eq_getLast?, List.getLastD_eq_getLast?, List.getLast?_eq_getLast _ h]
  rfl

theorem getLastD_eq_getD {α : Type} {l : List α} (h : l ≠ []) (d : α) :
    l.getLastD d = l.getD (l.length - 1) d := by
  have hl : l.length - 1 < l.length := by
    cases l with
    | nil => exact absurd rfl h
    | cons a t => simp
  rw [getD_eq_getElem d hl, List.getLastD_eq_getLast?, List.getLast?_eq_getLast _ h,
    List.getLast_eq_getElem]
  rfl

theorem sorted_le_getLastD {l : List ℚ} (hs : l.Sorted (· ≤ ·)) {x : ℚ}
    (hx : x ∈ l) (d : ℚ) : x ≤ l.getLastD d := by
  have hne : l ≠ [] := List.ne_nil_of_mem hx
  obtain ⟨i, hi, hix⟩ := List.getElem_of_mem hx
  rw [getLastD_eq_getD hne, getD_eq_getElem d (by omega)]
  rw [← hix]
  exact sorted_getElem_mono hs (by omega) (by omega)

theorem frac_nonneg (q : ℚ) : 0 ≤ q - (⌊q⌋ : ℚ) :=
  sub_nonneg.mpr (Int.floor_le q)

theorem frac_lt_one (q : ℚ) : q - (⌊q⌋ : ℚ) < 1 := by
  have := Int.lt_floor_add_one q
  linarith

theorem floor_toNat_lt {l : List ℚ} {h : ℚ} (h0 : 0 ≤ h) (hn : h ≤ (l.length : ℚ) - 1) :
    (jsFloor h).toNat < l.length := by
  rw [jsFloor_eq_floor]
  have h1 : (0 : ℤ) ≤ ⌊h⌋ := Int.le_floor.mpr (by exact_mod_cast h0)
  have h2 : ⌊h⌋ ≤ (l.length : ℤ) - 1 := by
    have hcast : ((l.length : ℚ) - 1) = (((l.length : ℤ) - 1 : ℤ) : ℚ) := by push_cast; ring
    calc ⌊h⌋ ≤ ⌊(l.length : ℚ) - 1⌋ := Int.floor_le_floor hn
    _ = (l.length : ℤ) - 1 := by rw [hcast, Int.floor_intCast]
  omega

theorem getD_succ_ge {l : List ℚ} (hs : l.Sorted (· ≤ ·)) {j : ℕ} (hj : j < l.length) :
    l.getD j 0 ≤ l.getD (j + 1) (l.getD j 0) := by
  by_cases hj1 : j + 1 < l.length
  · rw [getD_eq_getElem (l.getD j 0) hj1, getD_eq_getElem (0 : ℚ) hj]
    exact sorted_getElem_mono hs (by omega) hj1
  · have hd : l.getD (j + 1) (l.getD j 0) = l.getD j 0 :=
      getD_eq_default_of_le _ (by omega : l.length ≤ j + 1)
    rw [hd]

theorem interp_ge_left {l : List ℚ} (hs : l.Sorted (· ≤ ·)) {h : ℚ}
    (h0 : 0 ≤ h) (hn : h ≤ (l.length : ℚ) - 1) :
    l.getD (jsFloor h).toNat 0 ≤ interpolateSorted l h := by
  have hj := floor_toNat_lt h0 hn
  have hdiff := getD_succ_ge hs hj
  have hfrac : 0 ≤ h - ((jsFloor h : ℤ) : ℚ) := by
    rw [jsFloor_eq_floor]
    exact frac_nonneg h
  simp only [interpolateSorted]
  have haux := mul_nonneg hfrac (sub_nonneg.mpr hdiff)
  linarith

theorem interp_le_right {l : List ℚ} (hs : l.Sorted (· ≤ ·)) {h : ℚ}
    (h0 : 0 ≤ h) (hn : h ≤ (l.length : ℚ) - 1) :
    interpolateSorted l h ≤ l.getD ((jsFloor h).toNat + 1) (l.getD (jsFloor h).toNat 0) := by
  have hj := floor_toNat_lt h0 hn
  have hdiff := getD_succ_ge hs hj
  have hfrac0 : 0 ≤ h - ((jsFloor h : ℤ) : ℚ) := by
    rw [jsFloor_eq_floor]
    exact frac_nonneg h
  have hfrac1 : h - ((jsFloor h : ℤ) : ℚ) < 1 := by
    rw [jsFloor_eq_floor]
    exact frac_lt_one h
  simp only [interpolateSorted]
  have haux := mul_le_of_le_one_left (sub_nonneg.mpr hdiff) (le_of_lt hfrac1)
  linarith

theorem interp_mono {l : List ℚ} (hs : l.Sorted (· ≤ ·)) {h1 h2 : ℚ}
    (h0 : 0 ≤ h1) (h12 : h1 ≤ h2) (hn : h2 ≤ (l.length : ℚ) - 1) :
    interpolateSorted l h1 ≤ interpolateSorted l h2 := by
  have h20 : 0 ≤ h2 := le_trans h0 h12
  have h1n : h1 ≤ (l.length : ℚ) - 1 := le_trans h12 hn
  have hj1 := floor_toNat_lt h0 h1n
  have hj2 := floor_toNat_lt h20 hn
  by_cases he : jsFloor h1 = jsFloor h2
  · have hdiff := getD_succ_ge hs hj1
    rw [he] at hdiff
    have hD := sub_nonneg.mpr hdiff
    simp only [interpolateSorted]
    rw [he]
    have haux := mul_le_mul_of_nonneg_right
      (sub_le_sub_right h12 ((jsFloor h2 : ℤ) : ℚ)) hD
    linarith
  · have hlt : jsFloor h1 < jsFloor h2 := by
      have hle : jsFloor h1 ≤ jsFloor h2 := by
        rw [jsFloor_eq_floor, jsFloor_eq_floor]
        exact Int.floor_le_floor h12
      omega
    have hnn1 : (0 : ℤ) ≤ jsFloor h1 := by
      rw [jsFloor_eq_floor]
      exact Int.le_floor.mpr (by exact_mod_cast h0)
    have hle21 : (jsFloor h1).toNat + 1 ≤ (jsFloor h2).toNat := by omega
    calc interpolateSorted l h1
        ≤ l.getD ((jsFloor h1).toNat + 1) (l.getD (jsFloor h1).toNat 0) :=
          interp_le_right hs h0 h1n
      _ = l.get ⟨(jsFloor h1).toNat + 1, by omega⟩ := getD_eq_getElem _ (by omega)
      _ ≤ l.get ⟨(jsFloor h2).toNat, hj2⟩ := sorted_getElem_mono hs hle21 hj2
      _ = l.getD (jsFloor h2).toNat 0 := (getD_eq_getElem _ hj2).symm
      _ ≤ interpolateSorted l h2 := interp_ge_left hs h20 hn

theorem getLastD_map {α β : Type} (f : α → β) {l : List α} (h : l ≠ []) (d : β) (d0 : α) :
    (l.map f).getLastD d = f (l.getLastD d0) := by
  have hm : l.map f ≠ [] := by
    simpa using h
  have hl : l.length - 1 < l.length := by
    cases l with
    | nil => exact absurd rfl h
    | cons a t => simp
  rw [getLastD_eq_getD hm d, getLastD_eq_getD h d0, List.length_map,
    getD_eq_getElem _ (by simpa using hl), getD_eq_getElem _ hl, List.getElem_map]

theorem getLastD_range (n : ℕ) (h : 1 ≤ n) : (List.range n).getLastD 0 = n - 1 := by
  have hne : List.range n ≠ [] := by
    simp [List.range_eq_nil]
    omega
  rw [getLastD_eq_getD hne, List.length_range, getD_eq_getElem _ (by simp; omega),
    List.getElem_range]

theorem quantile_mono (nv : List ℚ) (hne : nv ≠ []) {p q : ℚ}
    (hp : 0 ≤ p) (hpq : p ≤ q) (hq : q ≤ 1) :
    quantile nv p ≤ quantile nv q := by
  have hlen : 1 ≤ (nv.insertionSort (· ≤ ·)).length := by
    rw [List.length_insertionSort]
    exact List.length_pos.mpr hne
  have hc : (0 : ℚ) ≤ ((nv.insertionSort (· ≤ ·)).length : ℚ) - 1 := by
    have : (1 : ℚ) ≤ ((nv.insertionSort (· ≤ ·)).length : ℚ) := by exact_mod_cast hlen
    linarith
  simp only [quantile]
  apply interp_mono (List.sorted_insertionSort _ _)
  · exact mul_nonneg hc hp
  · exact mul_le_mul_of_nonneg_left hpq hc
  · exact mul_le_of_le_one_right hc hq

theorem quantile_one (nv : List ℚ) (hne : nv ≠ []) :
    quantile nv 1 = (nv.insertionSort (· ≤ ·)).getLastD 0 := by
  have hlen : 1 ≤ (nv.insertionSort (· ≤ ·)).length := by
    rw [List.length_insertionSort]
    exact List.length_pos.mpr hne
  have hsne : nv.insertionSort (· ≤ ·) ≠ [] := List.length_pos.mp (by omega)
  have hfl : jsFloor (((nv.insertionSort (· ≤ ·)).length : ℚ) - 1)
      = ((nv.insertionSort (· ≤ ·)).length : ℤ) - 1 := by
    rw [jsFloor_eq_floor,
      show (((nv.insertionSort (· ≤ ·)).length : ℚ) - 1)
        = ((((nv.insertionSort (· ≤ ·)).length : ℤ) - 1 : ℤ) : ℚ) from by push_cast; ring,
      Int.floor_intCast]
  simp only [quantile, interpolateSorted, mul_one, hfl]
  have htn : (((nv.insertionSort (· ≤ ·)).length : ℤ) - 1).toNat
      = (nv.insertionSort (· ≤ ·)).length - 1 := by omega
  have hz : (((nv.insertionSort (· ≤ ·)).length : ℚ) - 1)
      - ((((nv.insertionSort (· ≤ ·)).length : ℤ) - 1 : ℤ) : ℚ) = 0 := by
    push_cast
    ring
  rw [htn, hz, zero_mul, add_zero, getLastD_eq_getD hsne]

theorem sorted_last_is_max (nv : List ℚ) (hne : nv ≠ []) :
    (nv.insertionSort (· ≤ ·)).getLastD 0 ∈ nv ∧
      ∀ x ∈ nv, x ≤ (nv.insertionSort (· ≤ ·)).getLastD 0 := by
  have hlen : 1 ≤ (nv.insertionSort (· ≤ ·)).length := by
    rw [List.length_insertionSort]
    exact List.length_pos.mpr hne
  have hsne : nv.insertionSort (· ≤ ·) ≠ [] := List.length_pos.mp (by omega)
  have hs : (nv.insertionSort (· ≤ ·)).Sorted (· ≤ ·) := List.sorted_insertionSort _ _
  constructor
  · exact (List.mem_insertionSort _).mp (getLastD_mem hsne 0)
  · intro x hx
    exact sorted_le_getLastD hs ((List.mem_insertionSort _).mpr hx) 0

/-! Structure of the spec-modelled ckmeans partitions. -/

theorem compositions_mem : ∀ (k n : ℕ) (s : List ℕ), s ∈ compositions n k →
    s.length = k ∧ s.sum = n ∧ ∀ a ∈ s, 0 < a
  | 0, n, s, hs => by
    rw [compositions] at hs
    split at hs
    · next hn =>
      simp only [List.mem_singleton] at hs
      subst hs
      simp [hn]
    · simp at hs
  | k + 1, n, s, hs => by
    rw [compositions, List.mem_flatMap] at hs
    obtain ⟨j, hj, hmem⟩ := hs
    rw [List.mem_map] at hmem
    obtain ⟨rest, hrest, hcons⟩ := hmem
    have ih := compositions_mem k (n - (j + 1)) rest hrest
    rw [List.mem_range] at hj
    subst hcons
    refine ⟨by simp [ih.1], ?_, ?_⟩
    · rw [List.sum_cons, ih.2.1]
      omega
    · intro a ha
      rcases List.mem_cons.mp ha with rfl | ha
      · omega
      · exact ih.2.2 a ha

theorem compositions_exists : ∀ (k n : ℕ), 1 ≤ k → k ≤ n → ∃ s, s ∈ compositions n k
  | 0, _, h, _ => absurd h (by omega)
  | k + 1, n, _, hkn => by
    cases Nat.eq_zero_or_pos k with
    | inl hk0 =>
      subst hk0
      refine ⟨[n - 1 + 1], ?_⟩
      rw [compositions, List.mem_flatMap]
      refine ⟨n - 1, List.mem_range.mpr (by omega), ?_⟩
      rw [List.mem_map]
      refine ⟨[], ?_, rfl⟩
      rw [compositions]
      have hz : n - (n - 1 + 1) = 0 := by omega
      rw [hz]
      simp
    | inr hkpos =>
      obtain ⟨s, hsmem⟩ := compositions_exists k (n - 1) hkpos (by omega)
      refine ⟨(0 + 1) :: s, ?_⟩
      rw [compositions, List.mem_flatMap]
      refine ⟨0, List.mem_range.mpr (by omega), ?_⟩
      rw [List.mem_map]
      exact ⟨s, by simpa using hsmem, rfl⟩

theorem splitBlocks_length : ∀ (xs : List ℚ) (sizes : List ℕ),
    (splitBlocks xs sizes).length = sizes.length
  | _, [] => rfl
  | xs, s :: rest => by
    rw [splitBlocks]
    simp [splitBlocks_length (xs.drop s) rest]

theorem splitBlocks_flatten : ∀ (xs : List ℚ) (sizes : List ℕ), sizes.sum = xs.length →
    (splitBlocks xs sizes).flatten = xs
  | xs, [], h => by
    rw [splitBlocks]
    have hx : xs = [] := List.length_eq_zero.mp (by simpa using h.symm)
    simp [hx]
  | xs, s :: rest, h => by
    rw [List.sum_cons] at h
    rw [splitBlocks]
    show xs.take s ++ (splitBlocks (xs.drop s) rest).flatten = xs
    rw [splitBlocks_flatten (xs.drop s) rest (by rw [List.length_drop]; omega)]
    exact List.take_append_drop s xs

theorem splitBlocks_ne_nil : ∀ (xs : List ℚ) (sizes : List ℕ),
    (∀ a ∈ sizes, 0 < a) → sizes.sum ≤ xs.length →
    ∀ b ∈ splitBlocks xs sizes, b ≠ []
  | _, [], _, _, b, hb => by cases hb
  | xs, s :: rest, hpos, hsum, b, hb => by
    rw [List.sum_cons] at hsum
    rw [splitBlocks] at hb
    rcases List.mem_cons.mp hb with rfl | hb
    · intro hnil
      have hcase : s = 0 ∨ xs = [] := by simpa using List.take_eq_nil_iff.mp hnil
      have hs := hpos s (by simp)
      rcases hcase with h0 | h0
      · omega
      · rw [h0] at hsum
        simp at hsum
        omega
    · exact splitBlocks_ne_nil (xs.drop s) rest (fun a ha => hpos a (by simp [ha]))
        (by rw [List.length_drop]; omega) b hb

theorem mem_splitBlocks_subset : ∀ (xs : List ℚ) (sizes : List ℕ) (b : List ℚ),
    b ∈ splitBlocks xs sizes → ∀ x ∈ b, x ∈ xs
  | _, [], b, hb => by cases hb
  | xs, s :: rest, b, hb => by
    rw [splitBlocks] at hb
    rcases List.mem_cons.mp hb with rfl | hb
    · exact fun x hx => List.mem_of_mem_take hx
    · intro x hx
      exact List.mem_of_mem_drop (mem_splitBlocks_subset (xs.drop s) rest b hb x hx)

theorem splitBlocks_lasts_pairwise : ∀ (xs : List ℚ) (sizes : List ℕ),
    xs.Sorted (· ≤ ·) → (∀ a ∈ sizes, 0 < a) → sizes.sum ≤ xs.length →
    (splitBlocks xs sizes).Pairwise (fun A B => A.getLastD 0 ≤ B.getLastD 0)
  | _, [], _, _, _ => by
    rw [splitBlocks]
    exact List.Pairwise.nil
  | xs, s :: rest, hs, hpos, hsum => by
    rw [List.sum_cons] at hsum
    rw [splitBlocks]
    have hdrop_sorted : (xs.drop s).Sorted (· ≤ ·) :=
      hs.sublist (List.drop_sublist s xs)
    refine List.Pairwise.cons ?_ (splitBlocks_lasts_pairwise (xs.drop s) rest hdrop_sorted
      (fun a ha => hpos a (by simp [ha])) (by rw [List.length_drop]; omega))
    intro B hB
    have htne : xs.take s ≠ [] := by
      intro hnil
      have hcase : s = 0 ∨ xs = [] := by simpa using List.take_eq_nil_iff.mp hnil
      have hsp := hpos s (by simp)
      rcases hcase with h0 | h0
      · omega
      · rw [h0] at hsum
        simp at hsum
        omega
    have hBne : B ≠ [] := splitBlocks_ne_nil (xs.drop s) rest
      (fun a ha => hpos a (by simp [ha])) (by rw [List.length_drop]; omega) B hB
    have h1 : (xs.take s).getLastD 0 ∈ xs.take s := getLastD_mem htne 0
    have h2 : B.getLastD 0 ∈ xs.drop s :=
      mem_splitBlocks_subset (xs.drop s) rest B hB _ (getLastD_mem hBne 0)
    have hx : (xs.take s ++ xs.drop s).Sorted (· ≤ ·) := by
      rw [List.take_append_drop]
      exact hs
    exact (List.pairwise_append.mp hx).2.2 _ h1 _ h2

theorem getLastD_append {α : Type} (l1 l2 : List α) (h : l2 ≠ []) (d : α) :
    (l1 ++ l2).getLastD d = l2.getLastD d := by
  rw [List.getLastD_eq_getLast?, List.getLastD_eq_getLast?, List.getLast?_append]
  cases hq : l2.getLast? with
  | none => exact absurd (List.getLast?_eq_none_iff.mp hq) h
  | some x => rfl

theorem flatten_getLastD : ∀ (cs : List (List ℚ)), cs ≠ [] → (∀ b ∈ cs, b ≠ []) →
    cs.flatten.getLastD 0 = (cs.getLastD []).getLastD 0
  | [], h, _ => absurd rfl h
  | [c], _, _ => by
    show (c ++ [].flatten).getLastD 0 = _
    simp [List.getLastD_cons]
  | c :: c2 :: rest, _, hne => by
    have h2 : (c2 :: rest).flatten ≠ [] := by
      show c2 ++ rest.flatten ≠ []
      have : c2 ≠ [] := hne c2 (by simp)
      intro hx
      rcases List.append_eq_nil.mp hx with ⟨h0, _⟩
      exact this h0
    show (c ++ (c2 :: rest).flatten).getLastD 0 = _
    rw [getLastD_append _ _ h2, flatten_getLastD (c2 :: rest) (by simp)
      (fun b hb => hne b (by simp [hb])), List.getLastD_cons, List.getLastD_cons,
      List.getLastD_cons]

theorem clusterUpperBoundsAux_sublist : ∀ (cs : List (List ℚ)) (prev : List ℚ),
    List.Sublist (clusterUpperBoundsAux prev cs) (cs.map fun c => c.getLastD 0)
  | [], _ => List.nil_sublist _
  | c :: rest, prev => by
    rw [clusterUpperBoundsAux]
    split
    · exact List.Sublist.cons _ (clusterUpperBoundsAux_sublist rest c)
    · exact List.Sublist.cons₂ _ (clusterUpperBoundsAux_sublist rest c)

theorem clusterUpperBounds_sublist (cs : List (List ℚ)) :
    List.Sublist (clusterUpperBounds cs) (cs.map fun c => c.getLastD 0) := by
  cases cs with
  | nil => exact List.nil_sublist _
  | cons c rest => exact List.Sublist.cons₂ _ (clusterUpperBoundsAux_sublist rest c)

theorem clusterUpperBoundsAux_getLastD : ∀ (cs : List (List ℚ)) (prev : List ℚ),
    (clusterUpperBoundsAux prev cs).getLastD (prev.getLastD 0) =
      ((prev :: cs).getLastD []).getLastD 0
  | [], prev => by
    rw [clusterUpperBoundsAux, List.getLastD_cons]
    rfl
  | c :: rest, prev => by
    rw [clusterUpperBoundsAux]
    split
    · next hc =>
      have hcl : c.getLastD 0 = prev.getLastD 0 := by
        obtain ⟨x, rfl⟩ : ∃ x, c = [x] := List.length_eq_one.mp hc.1
        simpa using hc.2
      have ih := clusterUpperBoundsAux_getLastD rest c
      rw [hcl] at ih
      rw [ih, List.getLastD_cons, List.getLastD_cons, List.getLastD_cons]
    · next hc =>
      rw [List.getLastD_cons, clusterUpperBoundsAux_getLastD rest c,
        List.getLastD_cons, List.getLastD_cons, List.getLastD_cons]

theorem clusterUpperBounds_getLastD (cs : List (List ℚ)) (h : cs ≠ []) :
    (clusterUpperBounds cs).getLastD 0 = (cs.getLastD []).getLastD 0 := by
  cases cs with
  | nil => exact absurd rfl h
  | cons c rest =>
    rw [clusterUpperBounds, List.getLastD_cons, clusterUpperBoundsAux_getLastD rest c,
      List.getLastD_cons]

theorem ckmeans_spec (nv : List ℚ) (k : ℕ) (hk : 1 ≤ k) (hkn : k ≤ nv.length) :
    ∃ sizes, ckmeans nv k = splitBlocks (nv.insertionSort (· ≤ ·)) sizes ∧
      sizes.length = k ∧ sizes.sum = nv.length ∧ ∀ a ∈ sizes, 0 < a := by
  have hslen : (nv.insertionSort (· ≤ ·)).length = nv.length := List.length_insertionSort _ _
  obtain ⟨s0, hs0⟩ := compositions_exists k (nv.insertionSort (· ≤ ·)).length hk (by omega)
  cases harg : (compositions (nv.insertionSort (· ≤ ·)).length k).argmin
      (partitionCost (nv.insertionSort (· ≤ ·))) with
  | none =>
    rw [List.argmin_eq_none] at harg
    rw [harg] at hs0
    cases hs0
  | some sizes =>
    have hmem := List.argmin_mem harg
    have hprops := compositions_mem k _ sizes hmem
    refine ⟨sizes, ?_, hprops.1, by rw [← hslen]; exact hprops.2.1, hprops.2.2⟩
    simp only [ckmeans]
    rw [harg]

theorem quantile_branch_bounds (nv : List ℚ) (hne : nv ≠ []) (bc : ℕ) (hbc : 1 ≤ bc) :
    ((List.range bc).map fun (i : ℕ) => quantile nv (((i : ℚ) + 1) / (bc : ℚ))).Sorted (· ≤ ·) ∧
    ((List.range bc).map fun (i : ℕ) => quantile nv (((i : ℚ) + 1) / (bc : ℚ))).getLastD 0
      = (nv.insertionSort (· ≤ ·)).getLastD 0 := by
  have hbcQ : (0 : ℚ) < (bc : ℚ) := by exact_mod_cast hbc
  have hrne : List.range bc ≠ [] := by
    simp [List.range_eq_nil]
    omega
  constructor
  · have hp : ((List.range bc).map fun (i : ℕ) => quantile nv (((i : ℚ) + 1) / (bc : ℚ))).Pairwise
        (· ≤ ·) := by
      rw [List.pairwise_map, List.pairwise_iff_getElem]
      intro i j hi hj hij
      rw [List.length_range] at hi hj
      simp only [List.getElem_range]
      apply quantile_mono nv hne
      · positivity
      · have hc : ((i : ℚ) + 1) ≤ ((j : ℚ) + 1) := by
          have : (i : ℚ) ≤ (j : ℚ) := by exact_mod_cast le_of_lt hij
          linarith
        exact (div_le_div_right hbcQ).mpr hc
      · rw [div_le_one hbcQ]
        exact_mod_cast hj
    exact hp
  · rw [getLastD_map _ hrne 0 0, getLastD_range bc hbc]
    have hcast : (((bc - 1 : ℕ) : ℚ) + 1) = (bc : ℚ) := by
      have h1 : ((bc - 1 : ℕ) : ℚ) = (bc : ℚ) - 1 := by
        push_cast [Nat.cast_sub hbc]
        ring
      rw [h1]
      ring
    rw [hcast, div_self (ne_of_gt hbcQ), quantile_one nv hne]

theorem ckmeans_branch_bounds (nv : List ℚ) (hne : nv ≠ []) (k : ℕ)
    (hk : 1 ≤ k) (hkn : k ≤ nv.length) :
    (clusterUpperBounds (ckmeans nv k)).Sorted (· ≤ ·) ∧
    (clusterUpperBounds (ckmeans nv k)).length ≤ k ∧
    clusterUpperBounds (ckmeans nv k) ≠ [] ∧
    (clusterUpperBounds (ckmeans nv k)).getLastD 0
      = (nv.insertionSort (· ≤ ·)).getLastD 0 := by
  obtain ⟨sizes, hck, hlen, hsum, hpos⟩ := ckmeans_spec nv k hk hkn
  have hsort : (nv.insertionSort (· ≤ ·)).Sorted (· ≤ ·) := List.sorted_insertionSort _ _
  have hxlen : (nv.insertionSort (· ≤ ·)).length = nv.length := List.length_insertionSort _ _
  have hsum' : sizes.sum = (nv.insertionSort (· ≤ ·)).length := by omega
  have hpw := splitBlocks_lasts_pairwise (nv.insertionSort (· ≤ ·)) sizes hsort hpos (by omega)
  have hblocks_ne := splitBlocks_ne_nil (nv.insertionSort (· ≤ ·)) sizes hpos (by omega)
  have hcl_len : (splitBlocks (nv.insertionSort (· ≤ ·)) sizes).length = k := by
    rw [splitBlocks_length]
    exact hlen
  have hcl_ne : splitBlocks (nv.insertionSort (· ≤ ·)) sizes ≠ [] := by
    intro h0
    rw [h0] at hcl_len
    simp at hcl_len
    omega
  rw [hck]
  refine ⟨?_, ?_, ?_, ?_⟩
  · have hmap : ((splitBlocks (nv.insertionSort (· ≤ ·)) sizes).map
        fun c => c.getLastD 0).Pairwise (· ≤ ·) := List.pairwise_map.mpr hpw
    exact hmap.sublist (clusterUpperBounds_sublist _)
  · calc (clusterUpperBounds (splitBlocks (nv.insertionSort (· ≤ ·)) sizes)).length
        ≤ ((splitBlocks (nv.insertionSort (· ≤ ·)) sizes).map fun c => c.getLastD 0).length :=
          (clusterUpperBounds_sublist _).length_le
      _ = k := by rw [List.length_map, hcl_len]
  · cases hcl : splitBlocks (nv.insertionSort (· ≤ ·)) sizes with
    | nil => exact absurd hcl hcl_ne
    | cons c rest => simp [clusterUpperBounds]
  · rw [clusterUpperBounds_getLastD _ hcl_ne,
      ← flatten_getLastD _ hcl_ne hblocks_ne,
      splitBlocks_flatten _ _ hsum']

/-- Claim C1 (amended): for every column holding a non-empty numeric sample,
requested bin count at least 1 and a binning method other than `none`,
`buildBinColors` returns a bin array whose upperBound sequence is
non-decreasing and non-empty, whose length is at most
min(colorBins, number of numeric values) — the bound claimed for the number
of distinct values fails, see the counterexample — and whose final
upperBound equals the sample maximum (it is a sample value that bounds every
sample value). -/
theorem buildBinColors_bounds_invariants (tc : TableColumn) (ts : TableStyle) (g : List ℕ)
    (values : List (Option ℚ))
    (hv : tc.values = some values)
    (hne : values.filterMap id ≠ [])
    (hcb : 1 ≤ ts.colorBins)
    (hmn : ts.colorBinMethod ≠ ColorBinMethod.none) :
    ∃ bins, buildBinColors tc ts g = some bins ∧
      (bins.map BinColor.upperBound).Sorted (· ≤ ·) ∧
      bins.length ≤ min ts.colorBins.toNat (values.filterMap id).length ∧
      bins ≠ [] ∧
      (bins.getLastD dummyBinColor).upperBound ∈ values.filterMap id ∧
      ∀ x ∈ values.filterMap id, x ≤ (bins.getLastD dummyBinColor).upperBound := by
  have hguard : ¬(ts.colorBins ≤ 0 ∨ ts.colorBinMethod = ColorBinMethod.none) := by
    rintro (h | h)
    · omega
    · exact hmn h
  simp only [buildBinColors, hv]
  rw [if_neg hguard]
  set nv := values.filterMap id with hnv
  have hn1 : 1 ≤ nv.length := List.length_pos.mpr hne
  have hmax := sorted_last_is_max nv hne
  have hbz1 : 1 ≤ mathMin ts.colorBins (nv.length : ℤ) := by
    rw [mathMin_eq_min]
    exact le_min hcb (by exact_mod_cast hn1)
  have hbz2 : mathMin ts.colorBins (nv.length : ℤ) ≤ ts.colorBins := by
    rw [mathMin_eq_min]
    exact min_le_left _ _
  have hbz3 : mathMin ts.colorBins (nv.length : ℤ) ≤ (nv.length : ℤ) := by
    rw [mathMin_eq_min]
    exact min_le_right _ _
  have hKQ : ((mathMin ts.colorBins (nv.length : ℤ) : ℤ) : ℚ)
      = (((mathMin ts.colorBins (nv.length : ℤ)).toNat : ℕ) : ℚ) := by
    rw [show mathMin ts.colorBins (nv.length : ℤ)
      = ((mathMin ts.colorBins (nv.length : ℤ)).toNat : ℤ) from by omega]
    push_cast
    rw [Int.toNat_of_nonneg (by omega)]
  set K := (mathMin ts.colorBins (nv.length : ℤ)).toNat with hK
  have hK1 : 1 ≤ K := by omega
  have hKn : K ≤ nv.length := by omega
  have hKcb : K ≤ ts.colorBins.toNat := by omega
  by_cases hq : ts.colorBinMethod = ColorBinMethod.quantile ∨
      (ts.colorBinMethod = ColorBinMethod.auto ∧ 1000 < nv.length)
  · rw [if_pos hq]
    simp only [hKQ]
    obtain ⟨hsorted, hlast⟩ := quantile_branch_bounds nv hne K hK1
    have hBmap : (((List.range K).map fun (i : ℕ) =>
        ({ upperBound := quantile nv (((i : ℚ) + 1) / (K : ℚ)),
           color := getColorFromColorGradient g ((i : ℚ) / ((K : ℚ) - 1)) } : BinColor)).map
            BinColor.upperBound)
        = (List.range K).map fun (i : ℕ) => quantile nv (((i : ℚ) + 1) / (K : ℚ)) := by
      rw [List.map_map]
      rfl
    have hBlen : ((List.range K).map fun (i : ℕ) =>
        ({ upperBound := quantile nv (((i : ℚ) + 1) / (K : ℚ)),
           color := getColorFromColorGradient g ((i : ℚ) / ((K : ℚ) - 1)) } : BinColor)).length
        = K := by
      rw [List.length_map, List.length_range]
    have hBne : ((List.range K).map fun (i : ℕ) =>
        ({ upperBound := quantile nv (((i : ℚ) + 1) / (K : ℚ)),
           color := getColorFromColorGradient g ((i : ℚ) / ((K : ℚ) - 1)) } : BinColor)) ≠ [] :=
      List.length_pos.mp (by omega)
    have hBlast : (((List.range K).map fun (i : ℕ) =>
        ({ upperBound := quantile nv (((i : ℚ) + 1) / (K : ℚ)),
           color := getColorFromColorGradient g ((i : ℚ) / ((K : ℚ) - 1)) } : BinColor)).getLastD
          dummyBinColor).upperBound = (nv.insertionSort (· ≤ ·)).getLastD 0 := by
      rw [← getLastD_map BinColor.upperBound hBne 0 dummyBinColor, hBmap, hlast]
    refine ⟨_, rfl, ?_, ?_, hBne, ?_, ?_⟩
    · rw [hBmap]
      exact hsorted
    · omega
    · rw [hBlast]
      exact hmax.1
    · intro x hx
      rw [hBlast]
      exact hmax.2 x hx
  · rw [if_neg hq]
    obtain ⟨hsorted, hlenle, hbne, hlast⟩ := ckmeans_branch_bounds nv hne K hK1 hKn
    have hBmap : (((List.range (clusterUpperBounds (ckmeans nv K)).length).map fun (i : ℕ) =>
        ({ upperBound := (clusterUpperBounds (ckmeans nv K)).getD i 0,
           color := getColorFromColorGradient g
             ((i : ℚ) / (((clusterUpperBounds (ckmeans nv K)).length : ℚ) - 1)) } : BinColor)).map
            BinColor.upperBound)
        = clusterUpperBounds (ckmeans nv K) := by
      rw [List.map_map]
      exact range_map_getD _
    have hBlen : ((List.range (clusterUpperBounds (ckmeans nv K)).length).map fun (i : ℕ) =>
        ({ upperBound := (clusterUpperBounds (ckmeans nv K)).getD i 0,
           color := getColorFromColorGradient g
             ((i : ℚ) / (((clusterUpperBounds (ckmeans nv K)).length : ℚ) - 1)) } : BinColor)).length
        = (clusterUpperBounds (ckmeans nv K)).length := by
      rw [List.length_map, List.length_range]
    have hbpos : 1 ≤ (clusterUpperBounds (ckmeans nv K)).length := by
      cases hcl : clusterUpperBounds (ckmeans nv K) with
      | nil => exact absurd hcl hbne
      | cons a l => simp
    have hBne : ((List.range (clusterUpperBounds (ckmeans nv K)).length).map fun (i : ℕ) =>
        ({ upperBound := (clusterUpperBounds (ckmeans nv K)).getD i 0,
           color := getColorFromColorGradient g
             ((i : ℚ) / (((clusterUpperBounds (ckmeans nv K)).length : ℚ) - 1)) } : BinColor)) ≠ [] :=
      List.length_pos.mp (by omega)
    have hBlast : (((List.range (clusterUpperBounds (ckmeans nv K)).length).map fun (i : ℕ) =>
        ({ upperBound := (clusterUpperBounds (ckmeans nv K)).getD i 0,
           color := getColorFromColorGradient g
             ((i : ℚ) / (((clusterUpperBounds (ckmeans nv K)).length : ℚ) - 1)) } : BinColor)).getLastD
          dummyBinColor).upperBound = (nv.insertionSort (· ≤ ·)).getLastD 0 := by
      rw [← getLastD_map BinColor.upperBound hBne 0 dummyBinColor, hBmap, hlast]
    refine ⟨_, rfl, ?_, ?_, hBne, ?_, ?_⟩
    · rw [hBmap]
      exact hsorted
    · omega
    · rw [hBlast]
      exact hmax.1
    · intro x hx
      rw [hBlast]
      exact hmax.2 x hx

def columnFiveFive : TableColumn :=
  { values := some [some 5, some 5], minimumValue := 5, maximumValue := 5,
    name := "", type := VarType.SCALAR, enumList := [] }

def styleQuantile2 : TableStyle :=
  { colorBins := 2, colorBinMethod := ColorBinMethod.quantile, legendTicks := 0,
    colorMap := Option.none, minDisplayValue := Option.none, maxDisplayValue := Option.none }

theorem buildBinColors_distinct_length_cex :
    (buildBinColors columnFiveFive styleQuantile2 (List.range 8)).map List.length = some 2 ∧
    (([some (5 : ℚ), some 5].filterMap id).dedup).length = 1 ∧
    ¬ 2 ≤ min 2 (([some (5 : ℚ), some 5].filterMap id).dedup).length := by
  refine ⟨by with_unfolding_all rfl, by with_unfolding_all rfl, ?_⟩
  rw [show (([some (5 : ℚ), some 5].filterMap id).dedup).length = 1 from by
    with_unfolding_all rfl]
  decide

theorem buildBinColors_bounds_invariants_witness :
    ∃ bins, buildBinColors columnOneToEight styleQuantile4 (List.range 32) = some bins ∧
      (bins.map BinColor.upperBound).Sorted (· ≤ ·) ∧
      bins.length ≤ min styleQuantile4.colorBins.toNat
        ((([1, 2, 3, 4, 5, 6, 7, 8].map some).filterMap id).length) ∧
      bins ≠ [] ∧
      (bins.getLastD dummyBinColor).upperBound ∈ ([1, 2, 3, 4, 5, 6, 7, 8].map some).filterMap id ∧
      ∀ x ∈ ([1, 2, 3, 4, 5, 6, 7, 8].map some).filterMap id,
        x ≤ (bins.getLastD dummyBinColor).upperBound :=
  buildBinColors_bounds_invariants columnOneToEight styleQuantile4 (List.range 32)
    ([1, 2, 3, 4, 5, 6, 7, 8].map some) rfl (by decide) (by decide) (by decide)
